import Mathlib

/-!
Verification of the Shorts video generator (`src/video_generator.py`).

Shallow embedding conventions:
* Python strings are `List Char`; Python integers are `Nat`/`Int`; Python floats
  entering integer computations are modelled as `Rat` with explicit floor or
  truncation where the source applies `int(...)`.
* The drawing measure `draw.textlength` is an arbitrary function
  `List Char → Nat` (the source treats it as an opaque width oracle).
* Regular-expression matching (`re.finditer`) is abstracted as a list of
  non-overlapping, in-order match records; the surrounding span/gap logic of
  `tokenize_code` is embedded literally.
-/

set_option maxHeartbeats 1000000

/-- Python whitespace characters matched by `\s`, `str.strip`, `str.lstrip`
for the ASCII range used by the generator. -/
def isWs (c : Char) : Bool :=
  c = ' ' ∨ c = '\t' ∨ c = '\n' ∨ c = '\r' ∨ c = '\x0b' ∨ c = '\x0c'

/-- Python `str.lstrip()`. -/
def pyLstrip (s : List Char) : List Char := s.dropWhile isWs

/-- Python `str.strip()`. -/
def pyStrip (s : List Char) : List Char :=
  ((s.dropWhile isWs).reverse.dropWhile isWs).reverse

/-- Truthiness of `s.strip()` in Python: nonempty after stripping, i.e.
`s` contains some non-whitespace character. -/
def pyTruthyStrip (s : List Char) : Bool := s.any (fun c => !isWs c)

/-- The non-whitespace content of a string, in order. -/
def filterNonWs (s : List Char) : List Char := s.filter (fun c => !isWs c)

/-- Python `int(q)` on a rational: truncation toward zero. -/
def pyInt (q : ℚ) : ℤ := if 0 ≤ q then ⌊q⌋ else -⌊-q⌋

/-- Python `s.split(sep)` for a one-character separator (used with `'\n'` for
`code.split('\n')` and with `' '` inside `terminal_wrap`). -/
def splitOnChar (sep : Char) : List Char → List (List Char)
  | [] => [[]]
  | c :: rest =>
    match splitOnChar sep rest with
    | [] => [[]]
    | r :: rs => if c = sep then [] :: r :: rs else (c :: r) :: rs

/-! ## C1: frame distribution for the question-typing phase
Source: `generate_video`, lines 563-568 and 593-596. -/

/-- `total_frames_available = max(1, int((tts_duration_ms / 1000.0) * self.fps))`
(line 565), with the float truncation rendered as natural division. -/
def total_frames_available (tts_duration_ms fps : ℕ) : ℕ :=
  max 1 (tts_duration_ms * fps / 1000)

/-- Lines 566-568:
`base_frames = total_frames_available // max(1, total_chars)`,
`remainder = total_frames_available - base_frames * max(1, total_chars)`,
`frames_per_char_list = [base_frames + (1 if i < remainder else 0) for i in range(total_chars)]`. -/
def frames_per_char_list (total_frames total_chars : ℕ) : List ℕ :=
  let base_frames := total_frames / max 1 total_chars
  let remainder := total_frames - base_frames * max 1 total_chars
  (List.range total_chars).map (fun i => base_frames + if i < remainder then 1 else 0)

/-- Total frames emitted for the question characters: per character `idx`,
`repeats = max(1, frames_per_char_list[idx])` is passed to `append_frame`
(lines 593-596), so the emitted total is the sum of the clamped list. -/
def question_frames_emitted (tts_duration_ms fps total_chars : ℕ) : ℕ :=
  ((frames_per_char_list (total_frames_available tts_duration_ms fps) total_chars).map
    (fun k => max 1 k)).sum

/-- The spec's `round(D/1000*F)` (ties round up; the tie case is not exercised
by the counterexample). -/
def spec_round_frames (D F : ℕ) : ℤ := ⌊(D : ℚ) / 1000 * F + 1 / 2⌋

/-- Sum of the un-clamped per-character frame distribution over `range N`. -/
theorem sum_range_base_add_ite (base r : ℕ) : ∀ N,
    (((List.range N).map (fun i => base + if i < r then 1 else 0)).sum) = N * base + min r N := by
  intro N
  induction N with
  | zero => simp
  | succ n ih =>
    rw [List.range_succ, List.map_append, List.sum_append]
    simp only [List.map_cons, List.map_nil, List.sum_cons, List.sum_nil, ih, Nat.succ_mul]
    by_cases h : n < r <;> simp [h] <;> omega

/-- C1 (amended): for a flattened wrapped question of N >= 1 characters and
speech duration D ms at frame rate F, the question-typing phase distributes
base = total_frames // N with remainder r = total_frames - base*N, the first r
characters receiving base+1 frames and the rest base frames, where
total_frames = max(1, floor(D/1000*F)) (truncation, not round); each
character's repeat count is additionally clamped below at 1 frame, so the
total number of frames emitted equals max(total_frames, N): it equals
floor-based total_frames whenever total_frames >= N, and N otherwise. -/
theorem question_typing_frame_budget (D F N : ℕ) (hN : 1 ≤ N) :
    question_frames_emitted D F N = max (total_frames_available D F) N ∧
    (frames_per_char_list (total_frames_available D F) N).sum = total_frames_available D F := by
  have hmax : max 1 N = N := Nat.max_eq_right hN
  set T := total_frames_available D F with hT
  have hT1 : 1 ≤ T := le_max_left _ _
  unfold question_frames_emitted frames_per_char_list
  rw [← hT]
  simp only [hmax, List.map_map]
  set base := T / N with hbase
  set r := T - base * N with hr
  have hdm : N * (T / N) + T % N = T := Nat.div_add_mod T N
  have hrmod : r = T % N := by rw [hr, hbase, Nat.mul_comm]; omega
  have hrlt : r < N := by rw [hrmod]; exact Nat.mod_lt _ (by omega)
  have hsum2 : ((List.range N).map (fun i => base + if i < r then 1 else 0)).sum = T := by
    rw [sum_range_base_add_ite]
    rw [Nat.min_eq_left (le_of_lt hrlt)]
    rw [hbase, hrmod]; omega
  constructor
  · by_cases hb : base = 0
    · have hTN : T < N := by
        have := (Nat.div_eq_zero_iff (by omega : 0 < N)).mp (hbase ▸ hb)
        omega
      have hfun : ((fun k => max 1 k) ∘ fun i => base + if i < r then 1 else 0) =
          fun _ => 1 := by
        funext i
        by_cases h : i < r <;> simp [hb, h]
      rw [hfun]
      have : ((List.range N).map fun _ => (1:ℕ)).sum = N := by
        simp
      rw [this, Nat.max_eq_right (le_of_lt hTN)]
    · have hb1 : 1 ≤ base := Nat.one_le_iff_ne_zero.mpr hb
      have hfun : ((fun k => max 1 k) ∘ fun i => base + if i < r then 1 else 0) =
          fun i => base + if i < r then 1 else 0 := by
        funext i
        by_cases h : i < r <;> simp [h] <;> omega
      rw [hfun, hsum2]
      have hNT : N ≤ T := by
        have : N * 1 ≤ N * (T / N) := Nat.mul_le_mul_left N (hbase ▸ hb1)
        omega
      rw [Nat.max_eq_left hNT]
  · exact hsum2

/-- C1 counterexample: with D = 1999 ms, F = 30 fps and a single question
character, the code emits int(1999/1000*30) = 59 frames, while the claim's
round(D/1000*F) is 60: the source truncates rather than rounds. -/
theorem question_typing_round_counterexample :
    (question_frames_emitted 1999 30 1 : ℤ) ≠ spec_round_frames 1999 30 := by
  have h1 : question_frames_emitted 1999 30 1 = 59 := by decide
  have h2 : spec_round_frames 1999 30 = 60 := by unfold spec_round_frames; norm_num
  rw [h1, h2]; decide

/-- C1 witness: the amended budget theorem at D = 1000 ms, F = 30, N = 3. -/
theorem question_typing_frame_budget_witness :
    1 ≤ 3 ∧ question_frames_emitted 1000 30 3 = max (total_frames_available 1000 30) 3 :=
  ⟨by decide, (question_typing_frame_budget 1000 30 3 (by decide)).1⟩

/-! ## C2: tokenize_code span partition
Source: `tokenize_code`, lines 328-360. The regex engine behind `re.finditer`
is abstracted: a match list is any sequence of in-order, non-overlapping,
in-bounds `(start, stop, group)` records (which is exactly what `finditer`
yields for the combined token-spec pattern); the gap-filling span logic of
the source is embedded literally. -/

/-- The token groups of the combined pattern in `tokenize_code`, plus the
`default` tag given to unmatched gaps. -/
inductive TokKind
  | builtin | keyword | string | number | comment | operator | function | bracket | default
deriving DecidableEq, Repr

/-- One regex match: `m.start()`, `m.end()`, `m.lastgroup`. -/
structure RMatch where
  start : ℕ
  stop : ℕ
  kind : TokKind
deriving DecidableEq, Repr

/-- The guarantees `re.finditer` gives for its match stream over a string of
length `len`, starting from position `lo`: matches are in order,
non-overlapping and within bounds. -/
def matchesValid (len : ℕ) : ℕ → List RMatch → Bool
  | _, [] => true
  | lo, m :: ms =>
    decide (lo ≤ m.start) && decide (m.start ≤ m.stop) && decide (m.stop ≤ len) &&
      matchesValid len m.stop ms

/-- The loop of `tokenize_code` (lines 350-359): for each match, append the
unmatched gap `line[last_end:m.start()]` tagged `default`, then the matched
span `line[m.start():m.end()]` with the match's group; after the loop append
the tail `line[last_end:]` tagged `default`. -/
def buildTokens (line : List Char) : ℕ → List RMatch → List (List Char × TokKind)
  | last_end, [] =>
    if last_end < line.length then [(line.drop last_end, TokKind.default)] else []
  | last_end, m :: ms =>
    (if last_end < m.start then [((line.drop last_end).take (m.start - last_end), TokKind.default)]
     else [])
    ++ ((line.drop m.start).take (m.stop - m.start), m.kind) :: buildTokens line m.stop ms

/-- `tokenize_code` (lines 328-360): empty line short-circuits to `[]`
(line 332-333), otherwise the match-walking loop runs. The function is a
total Lean definition, mirroring that the Python function cannot raise. -/
def tokenize_code (line : List Char) (ms : List RMatch) : List (List Char × TokKind) :=
  if line = [] then [] else buildTokens line 0 ms

/-- Splicing a slice back: `line[a:b] ++ line[b:] = line[a:]` for `a <= b`. -/
theorem drop_take_append_drop (l : List Char) (a b : ℕ) (hab : a ≤ b) :
    (l.drop a).take (b - a) ++ l.drop b = l.drop a := by
  conv_rhs => rw [← List.take_append_drop (b - a) (l.drop a)]
  rw [List.drop_drop]
  congr 2
  omega

/-- The token texts produced from position `le` onward concatenate to the
suffix `line[le:]`. -/
theorem buildTokens_concat (line : List Char) :
    ∀ (ms : List RMatch) (le : ℕ), matchesValid line.length le ms = true →
      ((buildTokens line le ms).map Prod.fst).flatten = line.drop le := by
  intro ms
  induction ms with
  | nil =>
    intro le _
    unfold buildTokens
    by_cases h : le < line.length
    · simp [h]
    · simp [h, List.drop_eq_nil_of_le (by omega : line.length ≤ le)]
  | cons m ms ih =>
    intro le h
    unfold matchesValid at h
    simp only [Bool.and_eq_true, decide_eq_true_eq] at h
    obtain ⟨⟨⟨h1, h2⟩, h3⟩, h4⟩ := h
    unfold buildTokens
    by_cases hgap : le < m.start
    · simp only [hgap, if_pos, List.map_append, List.map_cons, List.flatten_append,
        List.flatten_cons, List.map_nil, List.flatten_nil, List.append_nil]
      rw [ih m.stop h4]
      rw [drop_take_append_drop line m.start m.stop h2]
      rw [drop_take_append_drop line le m.start (le_of_lt hgap)]
    · have hle : le = m.start := by omega
      simp only [hgap, if_neg, not_false_iff, List.nil_append, List.map_cons, List.flatten_cons]
      rw [ih m.stop h4]
      rw [hle, drop_take_append_drop line m.start m.stop h2]

/-- Every produced token is either an unmatched gap tagged `default` or the
exact span of one of the matches with that match's group. -/
theorem buildTokens_kinds (line : List Char) :
    ∀ (ms : List RMatch) (le : ℕ), ∀ t ∈ buildTokens line le ms,
      t.2 = TokKind.default ∨
        ∃ m ∈ ms, t.2 = m.kind ∧ t.1 = (line.drop m.start).take (m.stop - m.start) := by
  intro ms
  induction ms with
  | nil =>
    intro le t ht
    unfold buildTokens at ht
    by_cases h : le < line.length
    · simp only [h, if_pos, List.mem_singleton] at ht
      left; rw [ht]
    · simp [h] at ht
  | cons m ms ih =>
    intro le t ht
    unfold buildTokens at ht
    rw [List.mem_append] at ht
    rcases ht with ht | ht
    · by_cases h : le < m.start
      · simp only [h, if_pos, List.mem_singleton] at ht
        left; rw [ht]
      · simp [h] at ht
    · rcases List.mem_cons.mp ht with ht | ht
      · right
        exact ⟨m, List.mem_cons_self _ _, by rw [ht], by rw [ht]⟩
      · rcases ih m.stop t ht with h | ⟨m', hm', h1, h2⟩
        · left; exact h
        · right; exact ⟨m', List.mem_cons_of_mem _ hm', h1, h2⟩

/-- C2 (confirmed): for every input line and every valid match stream,
concatenating the text spans of `tokenize_code line` in order reproduces
`line` exactly (no characters dropped or duplicated); every span that does
not come from a match is tagged `default`; the empty line yields the empty
token list; and the embedding is a total function, mirroring that the
Python function raises on no input. -/
theorem tokenize_spans (line : List Char) (ms : List RMatch)
    (h : matchesValid line.length 0 ms = true) :
    ((tokenize_code line ms).map Prod.fst).flatten = line ∧
    (∀ t ∈ tokenize_code line ms, t.2 = TokKind.default ∨
      ∃ m ∈ ms, t.2 = m.kind ∧ t.1 = (line.drop m.start).take (m.stop - m.start)) ∧
    tokenize_code [] ms = [] := by
  refine ⟨?_, ?_, by simp [tokenize_code]⟩
  · unfold tokenize_code
    by_cases hl : line = []
    · simp [hl]
    · simp only [hl, if_neg, not_false_iff]
      have := buildTokens_concat line ms 0 h
      simpa using this
  · intro t ht
    unfold tokenize_code at ht
    by_cases hl : line = []
    · simp [hl] at ht
    · simp only [hl, if_neg, not_false_iff] at ht
      exact buildTokens_kinds line ms 0 t ht

/-- C2 witness: the line "x=1" with its operator and number matches is
reassembled exactly from its token spans. -/
theorem tokenize_spans_witness :
    matchesValid 3 0 [⟨1, 2, TokKind.operator⟩, ⟨2, 3, TokKind.number⟩] = true ∧
    ((tokenize_code ['x', '=', '1'] [⟨1, 2, TokKind.operator⟩, ⟨2, 3, TokKind.number⟩]).map
      Prod.fst).flatten = ['x', '=', '1'] :=
  ⟨by decide, (tokenize_spans ['x', '=', '1'] _ (by decide)).1⟩

/-! ## C3/C4: wrap_code_line and terminal_wrap
Source: `wrap_code_line` (lines 619-653) and `terminal_wrap` (lines 801-832).
The loop bodies are factored into named step functions; `re.split(r"(\s+)", s)`
is embedded as `splitWsKeep`. The measure function stands for the opaque
`draw.textlength` oracle and is universally quantified. -/

/-- Maximal runs of characters of equal whitespace class. -/
def groupRuns : List Char → List (List Char)
  | [] => []
  | c :: rest =>
    match groupRuns rest with
    | [] => [[c]]
    | [] :: gs => [c] :: [] :: gs
    | (d :: g) :: gs =>
      if isWs c = isWs d then (c :: d :: g) :: gs else [c] :: (d :: g) :: gs

/-- Python `re.split(r"(\s+)", s)` (line 626): the non-whitespace parts
interleaved with the captured whitespace runs, with an empty part added at
either end when `s` starts or ends with whitespace. -/
def splitWsKeep (s : List Char) : List (List Char) :=
  match groupRuns s with
  | [] => [[]]
  | g :: gs =>
    (if g.all isWs then [[]] else []) ++ (g :: gs) ++
      (if ((g :: gs).getLastD []).all isWs then [[]] else [])

/-- The character-level fallback loop body of `wrap_code_line`
(lines 638-644): grow `piece` while it still fits after the indentation,
otherwise flush `leading_ws + piece` and restart `piece` from the current
character. -/
def wclCharStep (measure : List Char → ℕ) (max_px : ℕ) (lw : List Char)
    (q : List (List Char) × List Char) (ch : Char) : List (List Char) × List Char :=
  if measure (lw ++ q.2 ++ [ch]) ≤ max_px then (q.1, q.2 ++ [ch])
  else (q.1 ++ [lw ++ q.2], [ch])

/-- Lines 645-648: after the character loop, `curr` becomes
`leading_ws + piece` when a piece remains, else `leading_ws`. -/
def wclCharFinish (lw : List Char) (cs : List (List Char) × List Char) :
    List (List Char) × List Char :=
  if cs.2 ≠ [] then (cs.1, lw ++ cs.2) else (cs.1, lw)

/-- The flush guard `if curr.strip() or curr != leading_ws: lines.append(curr)`
(lines 634-635 and 651-652). -/
def wclFlush (lw : List Char) (st : List (List Char) × List Char) : List (List Char) :=
  if pyTruthyStrip st.2 || decide (st.2 ≠ lw) then st.1 ++ [st.2] else st.1

/-- The overflow handling of one token (lines 636-650): break the token by
characters when even `leading_ws + token` overflows, otherwise restart the
current line as `leading_ws + token.lstrip()`. -/
def wclOverflow (measure : List Char → ℕ) (max_px : ℕ) (lw : List Char)
    (lines1 : List (List Char)) (token : List Char) : List (List Char) × List Char :=
  if max_px < measure (lw ++ token) then
    wclCharFinish lw (token.foldl (wclCharStep measure max_px lw) (lines1, []))
  else (lines1, lw ++ (token.dropWhile isWs))

/-- One iteration of the token loop (lines 629-650): accumulate the token if
`curr + token` fits, else flush and handle the overflow. -/
def wclStep (measure : List Char → ℕ) (max_px : ℕ) (lw : List Char)
    (st : List (List Char) × List Char) (token : List Char) : List (List Char) × List Char :=
  if measure (st.2 ++ token) ≤ max_px then (st.1, st.2 ++ token)
  else wclOverflow measure max_px lw (wclFlush lw st) token

/-- `wrap_code_line` (lines 619-653): preserve the leading whitespace, return
`[leading_ws]` when nothing remains after stripping, otherwise run the token
loop over `re.split(r"(\s+)", stripped)` starting from `curr = leading_ws`
and flush the final `curr`. -/
def wrap_code_line (measure : List Char → ℕ) (text : List Char) (max_px : ℕ) :
    List (List Char) :=
  if text.dropWhile isWs = [] then [text.takeWhile isWs]
  else
    wclFlush (text.takeWhile isWs)
      ((splitWsKeep (text.dropWhile isWs)).foldl
        (wclStep measure max_px (text.takeWhile isWs)) ([], text.takeWhile isWs))

/-- Word-accumulation step of `terminal_wrap` (lines 808-814): extend the
current line with a space and the next word when the candidate fits, else
flush the current line. -/
def termWordStep (measure : List Char → ℕ) (max_px : ℕ)
    (st : List (List Char) × List Char) (w : List Char) : List (List Char) × List Char :=
  if measure (st.2 ++ [' '] ++ w) ≤ max_px then (st.1, st.2 ++ [' '] ++ w)
  else (st.1 ++ [st.2], w)

/-- Character-level safety split of `terminal_wrap` (lines 823-829). -/
def termCharStep (measure : List Char → ℕ) (max_px : ℕ)
    (q : List (List Char) × List Char) (ch : Char) : List (List Char) × List Char :=
  if measure (q.2 ++ [ch]) ≤ max_px then (q.1, q.2 ++ [ch])
  else (q.1 ++ [q.2], [ch])

/-- The final safety pass of `terminal_wrap` (lines 818-831): keep lines
that fit, break the rest by characters. -/
def termSafetyStep (measure : List Char → ℕ) (max_px : ℕ)
    (final_lines : List (List Char)) (ln : List Char) : List (List Char) :=
  if measure ln ≤ max_px then final_lines ++ [ln]
  else
    let q := ln.foldl (termCharStep measure max_px) (final_lines, [])
    if q.2 ≠ [] then q.1 ++ [q.2] else q.1

/-- `if current: lines.append(current)` after the word loop (lines 815-816). -/
def termAppendCurrent (st : List (List Char) × List Char) : List (List Char) :=
  if st.2 ≠ [] then st.1 ++ [st.2] else st.1

/-- `terminal_wrap` (lines 801-832): `[""]` for empty text, else a greedy
word wrap at single spaces followed by the character-level safety pass. -/
def terminal_wrap (measure : List Char → ℕ) (text : List Char) (max_px : ℕ) :
    List (List Char) :=
  if text = [] then [[]]
  else
    match splitOnChar ' ' text with
    | [] => []
    | w0 :: ws =>
      (termAppendCurrent (ws.foldl (termWordStep measure max_px) ([], w0))).foldl
        (termSafetyStep measure max_px) []

/-- A fold preserves any invariant its steps preserve. -/
theorem foldl_preserve {α σ : Type _} (f : σ → α → σ) (P : σ → Prop) :
    ∀ (l : List α) (s : σ), (∀ a ∈ l, ∀ t, P t → P (f t a)) → P s → P (l.foldl f s) := by
  intro l
  induction l with
  | nil => intro s _ hs; exact hs
  | cons a l ih =>
    intro s h hs
    exact ih (f s a) (fun b hb t ht => h b (List.mem_cons_of_mem _ hb) t ht)
      (h a (List.mem_cons_self _ _) s hs)

theorem groupRuns_flatten (s : List Char) : (groupRuns s).flatten = s := by
  induction s with
  | nil => rfl
  | cons c rest ih =>
    unfold groupRuns
    cases hrec : groupRuns rest with
    | nil =>
      rw [hrec] at ih
      simp at ih
      simp [← ih]
    | cons g0 gs =>
      rw [hrec] at ih
      cases g0 with
      | nil => simp_all
      | cons d g' =>
        by_cases hcd : isWs c = isWs d <;> simp [hcd] <;> simp_all

theorem splitWsKeep_eq_nil {s : List Char} (hrec : groupRuns s = []) :
    splitWsKeep s = [[]] := by
  unfold splitWsKeep; rw [hrec]

theorem splitWsKeep_eq_cons {s : List Char} {g : List Char} {gs : List (List Char)}
    (hrec : groupRuns s = g :: gs) :
    splitWsKeep s = (if g.all isWs then [[]] else []) ++ (g :: gs) ++
      (if ((g :: gs).getLastD []).all isWs then [[]] else []) := by
  unfold splitWsKeep; rw [hrec]

theorem ite_singleton_nil_flatten {b : Prop} [Decidable b] :
    (if b then [([] : List Char)] else []).flatten = [] := by
  split <;> rfl

theorem mem_ite_singleton_nil {b : Prop} [Decidable b] {t : List Char}
    (h : t ∈ (if b then [([] : List Char)] else [])) : t = [] := by
  split at h <;> simp_all

/-- Each run of `groupRuns` is uniformly whitespace or uniformly not. -/
theorem groupRuns_pure (s : List Char) :
    ∀ g ∈ groupRuns s, (∀ c ∈ g, isWs c = true) ∨ (∀ c ∈ g, isWs c = false) := by
  induction s with
  | nil => intro g hg; simp [groupRuns] at hg
  | cons c rest ih =>
    intro g hg
    unfold groupRuns at hg
    cases hrec : groupRuns rest with
    | nil =>
      rw [hrec] at hg
      simp at hg
      subst hg
      cases h : isWs c
      · right; intro x hx; simp at hx; subst hx; exact h
      · left; intro x hx; simp at hx; subst hx; exact h
    | cons g0 gs =>
      rw [hrec] at hg
      cases g0 with
      | nil =>
        rcases List.mem_cons.mp hg with h | h
        · subst h
          cases h : isWs c
          · right; intro x hx; simp at hx; subst hx; exact h
          · left; intro x hx; simp at hx; subst hx; exact h
        · rcases List.mem_cons.mp h with h | h
          · subst h; left; intro x hx; simp at hx
          · exact ih g (hrec ▸ List.mem_cons_of_mem _ h)
      | cons d g' =>
        have hg2 : g ∈ (if isWs c = isWs d then (c :: d :: g') :: gs
            else [c] :: (d :: g') :: gs) := hg
        by_cases hcd : isWs c = isWs d
        · rw [if_pos hcd] at hg2
          rcases List.mem_cons.mp hg2 with h | h
          · subst h
            rcases ih (d :: g') (hrec ▸ List.mem_cons_self _ _) with hp | hp
            · left
              intro x hx
              rcases List.mem_cons.mp hx with h | h
              · subst h; rw [hcd]; exact hp d (List.mem_cons_self _ _)
              · exact hp x h
            · right
              intro x hx
              rcases List.mem_cons.mp hx with h | h
              · subst h; rw [hcd]; exact hp d (List.mem_cons_self _ _)
              · exact hp x h
          · exact ih g (hrec ▸ List.mem_cons_of_mem _ h)
        · rw [if_neg hcd] at hg2
          rcases List.mem_cons.mp hg2 with h | h
          · subst h
            cases h : isWs c
            · right; intro x hx; simp at hx; subst hx; exact h
            · left; intro x hx; simp at hx; subst hx; exact h
          · exact ih g (hrec ▸ h)

theorem splitWsKeep_flatten (s : List Char) : (splitWsKeep s).flatten = s := by
  cases hrec : groupRuns s with
  | nil =>
    have h := groupRuns_flatten s
    rw [hrec] at h
    simp at h
    rw [splitWsKeep_eq_nil hrec, h]
    rfl
  | cons g gs =>
    have h := groupRuns_flatten s
    rw [hrec] at h
    rw [splitWsKeep_eq_cons hrec]
    rw [List.flatten_append, List.flatten_append, ite_singleton_nil_flatten,
      ite_singleton_nil_flatten]
    simpa using h

/-- Each token produced by `splitWsKeep` is entirely whitespace or entirely
not, matching what `re.split(r"(\s+)", ...)` yields. -/
theorem splitWsKeep_pure (s : List Char) :
    ∀ t ∈ splitWsKeep s, (∀ c ∈ t, isWs c = true) ∨ (∀ c ∈ t, isWs c = false) := by
  intro t ht
  cases hrec : groupRuns s with
  | nil =>
    rw [splitWsKeep_eq_nil hrec] at ht
    simp at ht
    subst ht
    left; intro c hc; simp at hc
  | cons g gs =>
    rw [splitWsKeep_eq_cons hrec] at ht
    rw [List.append_assoc, List.mem_append, List.mem_append] at ht
    rcases ht with ht | ht | ht
    · have := mem_ite_singleton_nil ht
      subst this; left; intro c hc; simp at hc
    · exact groupRuns_pure s t (hrec ▸ ht)
    · have := mem_ite_singleton_nil ht
      subst this; left; intro c hc; simp at hc

theorem filterNonWs_append (a b : List Char) :
    filterNonWs (a ++ b) = filterNonWs a ++ filterNonWs b := by
  simp [filterNonWs, List.filter_append]

theorem filterNonWs_dropWhile_isWs (s : List Char) :
    filterNonWs (s.dropWhile isWs) = filterNonWs s := by
  induction s with
  | nil => rfl
  | cons c rest ih =>
    by_cases h : isWs c
    · rw [List.dropWhile_cons]
      simp only [h, if_true]
      rw [ih]
      unfold filterNonWs
      rw [List.filter_cons]
      simp [h]
    · rw [List.dropWhile_cons]
      simp [h]

theorem filterNonWs_of_all_ws {s : List Char} (h : ∀ c ∈ s, isWs c = true) :
    filterNonWs s = [] := by
  unfold filterNonWs
  rw [List.filter_eq_nil_iff]
  intro a ha
  simp [h a ha]

theorem filterNonWs_takeWhile_isWs (s : List Char) :
    filterNonWs (s.takeWhile isWs) = [] :=
  filterNonWs_of_all_ws (fun _ hc => List.mem_takeWhile_imp hc)

/-- The character-fallback loop keeps every character of the token: all its
pieces land either in flushed lines (behind the indentation prefix) or in the
final piece. Stated via the non-whitespace content. -/
theorem wcl_char_fold_content (measure : List Char → ℕ) (max_px : ℕ) (lw : List Char)
    (hlw : filterNonWs lw = []) (chars : List Char) :
    ∀ (lines : List (List Char)) (p : List Char),
      filterNonWs (chars.foldl (wclCharStep measure max_px lw) (lines, p)).1.flatten ++
        filterNonWs (chars.foldl (wclCharStep measure max_px lw) (lines, p)).2 =
      filterNonWs lines.flatten ++ filterNonWs p ++ filterNonWs chars := by
  induction chars with
  | nil => intro lines p; simp [filterNonWs]
  | cons ch chars ih =>
    intro lines p
    rw [List.foldl_cons]
    by_cases h : measure (lw ++ p ++ [ch]) ≤ max_px
    · have hstep : wclCharStep measure max_px lw (lines, p) ch = (lines, p ++ [ch]) := by
        unfold wclCharStep; rw [if_pos h]
      rw [hstep, ih]
      by_cases hch : isWs ch <;>
        simp [filterNonWs, List.filter_append, List.filter_cons, hch, List.append_assoc]
    · have hstep : wclCharStep measure max_px lw (lines, p) ch = (lines ++ [lw ++ p], [ch]) := by
        unfold wclCharStep; rw [if_neg h]
      rw [hstep, ih]
      have hlw2 : List.filter (fun c => !isWs c) lw = [] := hlw
      by_cases hch : isWs ch <;>
        simp [filterNonWs, List.filter_append, List.filter_cons, hch, hlw2, List.append_assoc]

theorem wclCharFinish_content (lw : List Char) (hlw : filterNonWs lw = [])
    (cs : List (List Char) × List Char) :
    filterNonWs (wclCharFinish lw cs).1.flatten ++ filterNonWs (wclCharFinish lw cs).2 =
      filterNonWs cs.1.flatten ++ filterNonWs cs.2 := by
  unfold wclCharFinish
  by_cases h : cs.2 ≠ []
  · rw [if_pos h]
    simp [filterNonWs_append, hlw]
  · rw [if_neg h]
    push_neg at h
    rw [h, hlw]
    rfl

/-- Flushing `curr` preserves non-whitespace content: when the flush guard
drops `curr`, `curr` equals the all-whitespace indentation. -/
theorem wclFlush_content (lw : List Char) (st : List (List Char) × List Char) :
    filterNonWs (wclFlush lw st).flatten =
      filterNonWs st.1.flatten ++ filterNonWs st.2 := by
  unfold wclFlush
  by_cases h : pyTruthyStrip st.2 || decide (st.2 ≠ lw)
  · rw [if_pos h]
    simp [filterNonWs_append]
  · rw [if_neg h]
    simp only [Bool.or_eq_true, not_or, Bool.not_eq_true, decide_eq_true_eq] at h
    have : filterNonWs st.2 = [] := by
      apply filterNonWs_of_all_ws
      intro c hc
      by_contra hcc
      have : pyTruthyStrip st.2 = true := by
        unfold pyTruthyStrip
        rw [List.any_eq_true]
        exact ⟨c, hc, by simp [hcc]⟩
      simp [this] at h
    simp [this]

theorem wclOverflow_content (measure : List Char → ℕ) (max_px : ℕ) (lw : List Char)
    (hlw : filterNonWs lw = []) (lines1 : List (List Char)) (token : List Char) :
    filterNonWs (wclOverflow measure max_px lw lines1 token).1.flatten ++
      filterNonWs (wclOverflow measure max_px lw lines1 token).2 =
    filterNonWs lines1.flatten ++ filterNonWs token := by
  unfold wclOverflow
  by_cases h : max_px < measure (lw ++ token)
  · rw [if_pos h]
    rw [wclCharFinish_content lw hlw]
    rw [wcl_char_fold_content measure max_px lw hlw token lines1 []]
    simp [filterNonWs]
  · rw [if_neg h]
    simp only []
    rw [filterNonWs_append, hlw, List.nil_append, filterNonWs_dropWhile_isWs]

theorem wclStep_content (measure : List Char → ℕ) (max_px : ℕ) (lw : List Char)
    (hlw : filterNonWs lw = []) (st : List (List Char) × List Char) (token : List Char) :
    filterNonWs (wclStep measure max_px lw st token).1.flatten ++
      filterNonWs (wclStep measure max_px lw st token).2 =
    filterNonWs st.1.flatten ++ filterNonWs st.2 ++ filterNonWs token := by
  unfold wclStep
  by_cases h : measure (st.2 ++ token) ≤ max_px
  · rw [if_pos h]
    simp [filterNonWs_append, List.append_assoc]
  · rw [if_neg h]
    rw [wclOverflow_content measure max_px lw hlw]
    rw [wclFlush_content lw st]

theorem wcl_loop_content (measure : List Char → ℕ) (max_px : ℕ) (lw : List Char)
    (hlw : filterNonWs lw = []) :
    ∀ (tokens : List (List Char)) (lines : List (List Char)) (curr : List Char),
      filterNonWs ((tokens.foldl (wclStep measure max_px lw) (lines, curr)).1).flatten ++
        filterNonWs (tokens.foldl (wclStep measure max_px lw) (lines, curr)).2 =
      filterNonWs lines.flatten ++ filterNonWs curr ++ filterNonWs tokens.flatten := by
  intro tokens
  induction tokens with
  | nil => intro lines curr; simp [filterNonWs]
  | cons t ts ih =>
    intro lines curr
    rw [List.foldl_cons]
    have h1 := ih (wclStep measure max_px lw (lines, curr) t).1
      (wclStep measure max_px lw (lines, curr) t).2
    rw [h1]
    rw [wclStep_content measure max_px lw hlw (lines, curr) t]
    simp [filterNonWs_append, List.append_assoc]

/-- C4 (amended): concatenating the sub-lines returned by `wrap_code_line`
preserves the original line's non-whitespace content exactly and in order;
whitespace is not preserved verbatim: the indentation prefix is replicated
onto continuation sub-lines and inter-token whitespace may be dropped at
wrap points (the `token.lstrip()` on line 650). -/
theorem wrap_code_line_content (measure : List Char → ℕ) (text : List Char) (max_px : ℕ) :
    filterNonWs (wrap_code_line measure text max_px).flatten = filterNonWs text := by
  unfold wrap_code_line
  have hlw : filterNonWs (text.takeWhile isWs) = [] := filterNonWs_takeWhile_isWs text
  by_cases hs : text.dropWhile isWs = []
  · rw [if_pos hs]
    have htext : text.takeWhile isWs ++ text.dropWhile isWs = text :=
      List.takeWhile_append_dropWhile isWs text
    rw [hs, List.append_nil] at htext
    simp only [List.flatten_cons, List.flatten_nil, List.append_nil]
    rw [htext]
  · rw [if_neg hs]
    rw [wclFlush_content]
    rw [wcl_loop_content measure max_px (text.takeWhile isWs) hlw]
    rw [splitWsKeep_flatten]
    rw [filterNonWs_dropWhile_isWs]
    rw [hlw]
    simp [filterNonWs]

/-- The reconstruction described by C4: keep the first sub-line whole and
strip the indentation prefix from every continuation sub-line. -/
def reconstructWrapped (lw : List Char) : List (List Char) → List Char
  | [] => []
  | l :: rest => l ++ (rest.map (fun r => r.drop lw.length)).flatten

/-- C4 counterexample: wrapping "aaa bbb" at a 3-character budget yields
["aaa", "bbb"]; the indentation-aware concatenation gives "aaabbb", so the
separating space is lost and exact reconstruction fails. -/
theorem wrap_preservation_counterexample :
    reconstructWrapped ("aaa bbb".toList.takeWhile isWs)
      (wrap_code_line List.length "aaa bbb".toList 3) ≠ "aaa bbb".toList := by
  decide

/-- The fit guarantee a `wrap_code_line` sub-line can actually offer: within
budget, or the bare indentation, or the indentation plus one character. -/
def wclGood (measure : List Char → ℕ) (max_px : ℕ) (lw l : List Char) : Prop :=
  measure l ≤ max_px ∨ l = lw ∨ ∃ c, l = lw ++ [c]

/-- Invariant of the character-fallback piece: empty, a single character, or
within budget behind the indentation. -/
def wclPieceOk (measure : List Char → ℕ) (max_px : ℕ) (lw p : List Char) : Prop :=
  p = [] ∨ (∃ c, p = [c]) ∨ measure (lw ++ p) ≤ max_px

theorem wcl_char_fold_good (measure : List Char → ℕ) (max_px : ℕ) (lw : List Char)
    (chars : List Char) :
    ∀ (lines : List (List Char)) (p : List Char),
      (∀ l ∈ lines, wclGood measure max_px lw l) → wclPieceOk measure max_px lw p →
      (∀ l ∈ (chars.foldl (wclCharStep measure max_px lw) (lines, p)).1,
        wclGood measure max_px lw l) ∧
      wclPieceOk measure max_px lw (chars.foldl (wclCharStep measure max_px lw) (lines, p)).2 := by
  induction chars with
  | nil => intro lines p hl hp; exact ⟨hl, hp⟩
  | cons ch chars ih =>
    intro lines p hl hp
    rw [List.foldl_cons]
    by_cases h : measure (lw ++ p ++ [ch]) ≤ max_px
    · have hstep : wclCharStep measure max_px lw (lines, p) ch = (lines, p ++ [ch]) := by
        unfold wclCharStep; rw [if_pos h]
      rw [hstep]
      apply ih
      · exact hl
      · right; right; rw [← List.append_assoc]; exact h
    · have hstep : wclCharStep measure max_px lw (lines, p) ch = (lines ++ [lw ++ p], [ch]) := by
        unfold wclCharStep; rw [if_neg h]
      rw [hstep]
      apply ih
      · intro l hm
        rcases List.mem_append.mp hm with hm | hm
        · exact hl l hm
        · simp at hm
          subst hm
          rcases hp with h0 | ⟨c, hc⟩ | hm2
          · right; left; rw [h0, List.append_nil]
          · right; right; exact ⟨c, by rw [hc]⟩
          · left; exact hm2
      · right; left; exact ⟨ch, rfl⟩

theorem wclCharFinish_good (measure : List Char → ℕ) (max_px : ℕ) (lw : List Char)
    (cs : List (List Char) × List Char)
    (h1 : ∀ l ∈ cs.1, wclGood measure max_px lw l)
    (h2 : wclPieceOk measure max_px lw cs.2) :
    (∀ l ∈ (wclCharFinish lw cs).1, wclGood measure max_px lw l) ∧
      wclGood measure max_px lw (wclCharFinish lw cs).2 := by
  unfold wclCharFinish
  by_cases h : cs.2 ≠ []
  · rw [if_pos h]
    refine ⟨h1, ?_⟩
    rcases h2 with h0 | ⟨c, hc⟩ | hm
    · exact absurd h0 h
    · right; right; exact ⟨c, by rw [hc]⟩
    · left; exact hm
  · rw [if_neg h]
    exact ⟨h1, Or.inr (Or.inl rfl)⟩

theorem wclOverflow_good (measure : List Char → ℕ) (max_px : ℕ) (lw : List Char)
    (lines1 : List (List Char)) (token : List Char)
    (hpure : (∀ c ∈ token, isWs c = true) ∨ (∀ c ∈ token, isWs c = false))
    (hl : ∀ l ∈ lines1, wclGood measure max_px lw l) :
    (∀ l ∈ (wclOverflow measure max_px lw lines1 token).1, wclGood measure max_px lw l) ∧
      wclGood measure max_px lw (wclOverflow measure max_px lw lines1 token).2 := by
  unfold wclOverflow
  by_cases h : max_px < measure (lw ++ token)
  · rw [if_pos h]
    have hcf := wcl_char_fold_good measure max_px lw token lines1 [] hl (Or.inl rfl)
    exact wclCharFinish_good measure max_px lw _ hcf.1 hcf.2
  · rw [if_neg h]
    refine ⟨hl, ?_⟩
    rcases hpure with hp | hp
    · have : token.dropWhile isWs = [] := by
        rw [List.dropWhile_eq_nil_iff]
        intro c hc
        simp [hp c hc]
      rw [this, List.append_nil]
      right; left; rfl
    · cases token with
      | nil => right; left; simp
      | cons t ts =>
        have ht : isWs t = false := hp t (List.mem_cons_self _ _)
        have : (t :: ts).dropWhile isWs = t :: ts := by
          rw [List.dropWhile_cons, ht]
          simp
        rw [this]
        left
        exact Nat.le_of_not_lt h

theorem wclFlush_good_mem {measure : List Char → ℕ} {max_px : ℕ} {lw : List Char}
    {st : List (List Char) × List Char} {l : List Char}
    (hm : l ∈ wclFlush lw st)
    (h1 : ∀ x ∈ st.1, wclGood measure max_px lw x)
    (h2 : wclGood measure max_px lw st.2) : wclGood measure max_px lw l := by
  unfold wclFlush at hm
  by_cases hf : pyTruthyStrip st.2 || decide (st.2 ≠ lw)
  · rw [if_pos hf] at hm
    rcases List.mem_append.mp hm with hm | hm
    · exact h1 l hm
    · simp at hm; subst hm; exact h2
  · rw [if_neg hf] at hm
    exact h1 l hm

theorem wclStep_good (measure : List Char → ℕ) (max_px : ℕ) (lw : List Char)
    (st : List (List Char) × List Char) (token : List Char)
    (hpure : (∀ c ∈ token, isWs c = true) ∨ (∀ c ∈ token, isWs c = false))
    (hl : ∀ l ∈ st.1, wclGood measure max_px lw l)
    (hc : wclGood measure max_px lw st.2) :
    (∀ l ∈ (wclStep measure max_px lw st token).1, wclGood measure max_px lw l) ∧
      wclGood measure max_px lw (wclStep measure max_px lw st token).2 := by
  unfold wclStep
  by_cases h : measure (st.2 ++ token) ≤ max_px
  · rw [if_pos h]
    exact ⟨hl, Or.inl h⟩
  · rw [if_neg h]
    apply wclOverflow_good measure max_px lw _ token hpure
    intro l hm
    exact wclFlush_good_mem hm hl hc

theorem wrap_code_line_fit (measure : List Char → ℕ) (text : List Char) (max_px : ℕ) :
    ∀ l ∈ wrap_code_line measure text max_px,
      measure l ≤ max_px ∨ l = text.takeWhile isWs ∨ ∃ c, l = text.takeWhile isWs ++ [c] := by
  intro l hl
  unfold wrap_code_line at hl
  by_cases hs : text.dropWhile isWs = []
  · rw [if_pos hs] at hl
    simp at hl
    subst hl
    right; left; rfl
  · rw [if_neg hs] at hl
    have hloop := foldl_preserve (wclStep measure max_px (text.takeWhile isWs))
      (fun st => (∀ x ∈ st.1, wclGood measure max_px (text.takeWhile isWs) x) ∧
        wclGood measure max_px (text.takeWhile isWs) st.2)
      (splitWsKeep (text.dropWhile isWs)) ([], text.takeWhile isWs)
      (fun tok htok st hst =>
        wclStep_good measure max_px (text.takeWhile isWs) st tok
          (splitWsKeep_pure _ tok htok) hst.1 hst.2)
      ⟨by intro x hm; simp at hm, Or.inr (Or.inl rfl)⟩
    exact wclFlush_good_mem hl hloop.1 hloop.2

def termGood (measure : List Char → ℕ) (max_px : ℕ) (l : List Char) : Prop :=
  measure l ≤ max_px ∨ l = [] ∨ ∃ c, l = [c]

def termPieceOk (measure : List Char → ℕ) (max_px : ℕ) (p : List Char) : Prop :=
  p = [] ∨ (∃ c, p = [c]) ∨ measure p ≤ max_px

theorem term_char_fold_good (measure : List Char → ℕ) (max_px : ℕ) (chars : List Char) :
    ∀ (lines : List (List Char)) (p : List Char),
      (∀ l ∈ lines, termGood measure max_px l) → termPieceOk measure max_px p →
      (∀ l ∈ (chars.foldl (termCharStep measure max_px) (lines, p)).1,
        termGood measure max_px l) ∧
      termPieceOk measure max_px (chars.foldl (termCharStep measure max_px) (lines, p)).2 := by
  induction chars with
  | nil => intro lines p hl hp; exact ⟨hl, hp⟩
  | cons ch chars ih =>
    intro lines p hl hp
    rw [List.foldl_cons]
    by_cases h : measure (p ++ [ch]) ≤ max_px
    · have hstep : termCharStep measure max_px (lines, p) ch = (lines, p ++ [ch]) := by
        unfold termCharStep; rw [if_pos h]
      rw [hstep]
      exact ih lines (p ++ [ch]) hl (Or.inr (Or.inr h))
    · have hstep : termCharStep measure max_px (lines, p) ch = (lines ++ [p], [ch]) := by
        unfold termCharStep; rw [if_neg h]
      rw [hstep]
      apply ih
      · intro l hm
        rcases List.mem_append.mp hm with hm | hm
        · exact hl l hm
        · simp at hm
          subst hm
          rcases hp with h0 | ⟨c, hc⟩ | hm2
          · right; left; exact h0
          · right; right; exact ⟨c, hc⟩
          · left; exact hm2
      · right; left; exact ⟨ch, rfl⟩

theorem termSafetyStep_good (measure : List Char → ℕ) (max_px : ℕ)
    (fl : List (List Char)) (ln : List Char)
    (hfl : ∀ l ∈ fl, termGood measure max_px l) :
    ∀ l ∈ termSafetyStep measure max_px fl ln, termGood measure max_px l := by
  intro l hm
  unfold termSafetyStep at hm
  by_cases h : measure ln ≤ max_px
  · rw [if_pos h] at hm
    rcases List.mem_append.mp hm with hm | hm
    · exact hfl l hm
    · simp at hm; subst hm; left; exact h
  · rw [if_neg h] at hm
    have hcf := term_char_fold_good measure max_px ln fl [] hfl (Or.inl rfl)
    by_cases hq : (ln.foldl (termCharStep measure max_px) (fl, [])).2 ≠ []
    · rw [if_pos hq] at hm
      rcases List.mem_append.mp hm with hm | hm
      · exact hcf.1 l hm
      · simp at hm
        subst hm
        rcases hcf.2 with h0 | ⟨c, hc⟩ | hm2
        · right; left; exact h0
        · right; right; exact ⟨c, hc⟩
        · left; exact hm2
    · rw [if_neg hq] at hm
      exact hcf.1 l hm

theorem terminal_wrap_fit (measure : List Char → ℕ) (text : List Char) (max_px : ℕ) :
    ∀ l ∈ terminal_wrap measure text max_px,
      measure l ≤ max_px ∨ l = [] ∨ ∃ c, l = [c] := by
  intro l hl
  unfold terminal_wrap at hl
  by_cases ht : text = []
  · rw [if_pos ht] at hl
    simp at hl
    subst hl
    right; left; rfl
  · rw [if_neg ht] at hl
    cases hsp : splitOnChar ' ' text with
    | nil => rw [hsp] at hl; simp at hl
    | cons w0 ws =>
      rw [hsp] at hl
      have := foldl_preserve (termSafetyStep measure max_px)
        (fun fl => ∀ x ∈ fl, termGood measure max_px x)
        (termAppendCurrent (ws.foldl (termWordStep measure max_px) ([], w0))) []
        (fun ln _ fl hfl => termSafetyStep_good measure max_px fl ln hfl)
        (by intro x hm; simp at hm)
      exact this l hl

/-- C3 (amended): for every measure function, line and pixel budget, every
sub-line returned by `wrap_code_line` measures at most `max_px` OR consists of
the line's leading indentation plus at most one further character (such a
sub-line can exceed the budget when the indentation itself is wide, so the
overflowing unit is indentation-plus-one-character, not a bare single
character); every sub-line returned by `terminal_wrap` measures at most
`max_px` or is empty or a single character. Both wrappers are total Lean
functions, so they terminate on every input, including zero-width tokens. -/
theorem wrap_fit (measure : List Char → ℕ) (text : List Char) (max_px : ℕ) :
    (∀ l ∈ wrap_code_line measure text max_px,
      measure l ≤ max_px ∨ l = text.takeWhile isWs ∨ ∃ c, l = text.takeWhile isWs ++ [c]) ∧
    (∀ l ∈ terminal_wrap measure text max_px,
      measure l ≤ max_px ∨ l = [] ∨ ∃ c, l = [c]) :=
  ⟨wrap_code_line_fit measure text max_px, terminal_wrap_fit measure text max_px⟩

/-- C3 counterexample: wrapping " xy" (one-space indentation) at budget 1
with the character-count measure returns a sub-line " x" of width 2 > 1 that
is not a single character: with this measure, the claim "each sub-line fits
or is a single unsplittable character" would force every sub-line's length
to be at most 1, which fails. -/
theorem wrap_fit_counterexample :
    ¬ ∀ l ∈ wrap_code_line List.length [' ', 'x', 'y'] 1, List.length l ≤ 1 := by
  decide

/-- C3 witness: the amended fit theorem applied to " xy" at budget 1 for the
over-budget sub-line " x", which is indentation plus one character. -/
theorem wrap_fit_witness :
    ([' ', 'x'] ∈ wrap_code_line List.length [' ', 'x', 'y'] 1) ∧
    (List.length [' ', 'x'] ≤ 1 ∨ [' ', 'x'] = [' ', 'x', 'y'].takeWhile isWs ∨
      ∃ c, [' ', 'x'] = [' ', 'x', 'y'].takeWhile isWs ++ [c]) :=
  ⟨by decide, (wrap_fit List.length [' ', 'x', 'y'] 1).1 [' ', 'x'] (by decide)⟩

/-! ## C5: frame counting and mixed-track length
Source: `append_frame` (lines 482-488) and the mixing prologue
(lines 995-997). The audio segments come from the external pydub library;
their overlay semantics are modelled from the spec's mixer contract
(section 4.5): overlay is additive superposition at an offset onto a base
track whose length it preserves (pydub truncates the overlaid clip to the
base segment). -/

/-- The video encoder as observed through `append_frame`: the list of frames
handed to `out.write` plus the running `frame_count`. -/
structure EncoderState (F : Type) where
  written : List F
  frame_count : ℕ

/-- `append_frame(img, repeats)` (lines 482-488): write the frame `repeats`
times and increment `frame_count` once per write. -/
def append_frame {F : Type} (st : EncoderState F) (img : F) (repeats : ℕ) : EncoderState F :=
  { written := st.written ++ List.replicate repeats img,
    frame_count := st.frame_count + repeats }

/-- Modelled from the spec: a pydub `AudioSegment` as a duration in
milliseconds plus a sample function (zero outside the clip). -/
structure AudioSeg where
  len : ℚ
  sample : ℚ → ℤ

/-- Modelled from the spec: `AudioSegment.silent(duration)`. -/
def AudioSeg.silent (d : ℚ) : AudioSeg := ⟨d, fun _ => 0⟩

/-- Modelled from the spec: `base.overlay(clip, position)` adds the clip's
samples at the offset, truncated to the base segment, and keeps the base
segment's length. -/
def AudioSeg.overlay (base clip : AudioSeg) (pos : ℚ) : AudioSeg :=
  ⟨base.len, fun t =>
    base.sample t +
      if pos ≤ t ∧ t < pos + clip.len ∧ t < base.len then clip.sample (t - pos) else 0⟩

/-- The event-mixing loop (lines 1067-1120): overlay each event's clip onto
the accumulating track at the event's offset. -/
def mixEvents (base : AudioSeg) (events : List (ℚ × AudioSeg)) : AudioSeg :=
  events.foldl (fun acc e => acc.overlay e.2 e.1) base

/-- `total_duration = frame_count / self.fps * 1000` (line 995), in exact
rational arithmetic. -/
def total_duration_ms (frame_count fps : ℕ) : ℚ := frame_count / fps * 1000

theorem mixEvents_len (events : List (ℚ × AudioSeg)) :
    ∀ base : AudioSeg, (mixEvents base events).len = base.len := by
  induction events with
  | nil => intro base; rfl
  | cons e es ih =>
    intro base
    unfold mixEvents at ih ⊢
    rw [List.foldl_cons]
    exact ih (base.overlay e.2 e.1)

theorem append_frame_count {F : Type} (calls : List (F × ℕ)) :
    ∀ st : EncoderState F, st.frame_count = st.written.length →
      (calls.foldl (fun s p => append_frame s p.1 p.2) st).frame_count =
        (calls.foldl (fun s p => append_frame s p.1 p.2) st).written.length := by
  induction calls with
  | nil => intro st h; exact h
  | cons c cs ih =>
    intro st h
    rw [List.foldl_cons]
    apply ih
    unfold append_frame
    simp [h]

/-- C5 (confirmed): after any sequence of `append_frame` calls starting from
a fresh encoder, `frame_count` equals the number of frames actually written;
the silent base track is sized to exactly `frame_count / fps * 1000` ms, and
overlaying any list of audio events (including none) preserves that length,
so the mixed track's duration equals `total_duration_ms`. -/
theorem render_track_lengths {F : Type} (calls : List (F × ℕ)) (events : List (ℚ × AudioSeg)) :
    (calls.foldl (fun s p => append_frame s p.1 p.2) ⟨[], 0⟩).frame_count =
      (calls.foldl (fun s p => append_frame s p.1 p.2) ⟨[], 0⟩).written.length ∧
    (mixEvents
        (AudioSeg.silent (total_duration_ms
          (calls.foldl (fun s p => append_frame s p.1 p.2) ⟨[], 0⟩).frame_count 30))
        events).len =
      total_duration_ms
        (calls.foldl (fun s p => append_frame s p.1 p.2) ⟨[], 0⟩).frame_count 30 := by
  constructor
  · exact append_frame_count calls ⟨[], 0⟩ rfl
  · rw [mixEvents_len]
    rfl

/-! ## C6: merge fallback
Source: the merge endgame of `generate_video`, lines 1131-1161. File-system
effects are abstracted: `temp_video_exists` is whether the rendered stream
file is present, `merge_succeeds` whether the external ffmpeg invocation
returns success, and copying an existing file succeeds. -/

inductive MuxResult
  | ok (path : String)
  | fatal
deriving DecidableEq, Repr

/-- Lines 1131-1161: when ffmpeg is available and a mixed audio file exists,
attempt the merge and on failure fall back to copying the video-only stream
to the final path; without ffmpeg or audio, copy the video-only stream
directly. A missing video stream is the only fatal case. -/
def merge_phase (output_dir filename : String) (ffmpeg_available : Bool)
    (temp_audio : Option String) (merge_succeeds : Bool) (temp_video_exists : Bool) :
    MuxResult :=
  if ffmpeg_available && temp_audio.isSome then
    if merge_succeeds then MuxResult.ok (output_dir ++ "/" ++ filename ++ ".mp4")
    else if temp_video_exists then MuxResult.ok (output_dir ++ "/" ++ filename ++ ".mp4")
    else MuxResult.fatal
  else if temp_video_exists then MuxResult.ok (output_dir ++ "/" ++ filename ++ ".mp4")
  else MuxResult.fatal

/-- C6 (confirmed): if the external audio-merge invocation fails while the
video stream was produced, `generate_video` still returns the final output
path, emitting the video-only stream; the result is the same path the
successful-merge branch returns, so the render never fails solely because
the audio merge failed. -/
theorem merge_failure_fallback (output_dir filename temp_audio_path : String) :
    merge_phase output_dir filename true (some temp_audio_path) false true =
      MuxResult.ok (output_dir ++ "/" ++ filename ++ ".mp4") ∧
    merge_phase output_dir filename true (some temp_audio_path) false true =
      merge_phase output_dir filename true (some temp_audio_path) true true := by
  constructor <;> rfl

/-! ## C9: deterministic fallback speech duration
Source: lines 417-423 (fallback computation), 441-446 (SPEEDUP_FACTOR
sanitisation) and 463-468 (fallback scaling when no TTS audio exists). -/

/-- Lines 441-446: `SPEEDUP_FACTOR` parsed from the environment, coerced to
1.0 when non-positive. -/
def sanitize_speedup (s : ℚ) : ℚ := if s ≤ 0 then 1 else s

/-- Line 423: `tts_duration_ms = max(300, int(len(question) * base_ms_per_char))`. -/
def tts_fallback_ms (question_len : ℕ) (base_ms_per_char : ℚ) : ℤ :=
  max 300 (pyInt ((question_len : ℚ) * base_ms_per_char))

/-- The duration budget that reaches the question-typing phase: the measured
clip length when audio is enabled and TTS succeeded, otherwise the
deterministic fallback divided by the speedup factor
(`tts_duration_ms = int(tts_duration_ms / speedup)`, lines 463-468). -/
def question_tts_budget_ms (question_len : ℕ) (base_ms_per_char : ℚ) (speedup_env : ℚ)
    (audio_enabled tts_ok : Bool) (measured_ms : ℤ) : ℤ :=
  if audio_enabled && tts_ok then measured_ms
  else pyInt ((tts_fallback_ms question_len base_ms_per_char : ℚ) /
    sanitize_speedup speedup_env)

theorem pyInt_intCast (z : ℤ) : pyInt (z : ℚ) = z := by
  unfold pyInt
  by_cases h : (0:ℚ) ≤ (z:ℚ)
  · rw [if_pos h, Int.floor_intCast]
  · rw [if_neg h]
    rw [show (-(z:ℚ)) = ((-z : ℤ) : ℚ) by push_cast; ring]
    rw [Int.floor_intCast]
    omega

/-- C9 (amended): whenever speech synthesis does not succeed (audio disabled
or the TTS call failed), the duration budget used for question typing equals
`int(max(300, int(char_count * configured_ms_per_char)) / speedup)`, where
`speedup` is the SPEEDUP_FACTOR configuration (non-positive values coerced
to 1); at the default speedup of 1 this is exactly the claimed
`max(300 ms floor, char_count * configured_ms_per_char)`. -/
theorem question_fallback_budget (question_len : ℕ) (base_ms_per_char speedup_env : ℚ)
    (audio_enabled tts_ok : Bool) (measured_ms : ℤ)
    (h : (audio_enabled && tts_ok) = false) :
    question_tts_budget_ms question_len base_ms_per_char speedup_env audio_enabled
        tts_ok measured_ms =
      pyInt ((tts_fallback_ms question_len base_ms_per_char : ℚ) /
        sanitize_speedup speedup_env) ∧
    (speedup_env = 1 →
      question_tts_budget_ms question_len base_ms_per_char speedup_env audio_enabled
          tts_ok measured_ms =
        max 300 (pyInt ((question_len : ℚ) * base_ms_per_char))) := by
  constructor
  · unfold question_tts_budget_ms
    rw [h]
    simp
  · intro hs
    unfold question_tts_budget_ms
    rw [h]
    simp only [Bool.false_eq_true, if_false]
    rw [hs]
    have h1 : sanitize_speedup 1 = 1 := by
      unfold sanitize_speedup
      norm_num
    rw [h1, div_one]
    rw [pyInt_intCast]
    rfl

/-- C9 counterexample: with SPEEDUP_FACTOR = 2, a 100-character question and
the default 55 ms per character, the code's budget is int(5500 / 2) = 2750,
not the claimed fallback 5500: the claim omits the speedup division. -/
theorem question_fallback_counterexample :
    question_tts_budget_ms 100 55 2 false true 0 = 2750 ∧
    tts_fallback_ms 100 55 = 5500 ∧
    question_tts_budget_ms 100 55 2 false true 0 ≠ tts_fallback_ms 100 55 := by
  refine ⟨?_, ?_, ?_⟩
  · unfold question_tts_budget_ms tts_fallback_ms sanitize_speedup pyInt
    norm_num
  · unfold tts_fallback_ms pyInt
    norm_num
  · unfold question_tts_budget_ms tts_fallback_ms sanitize_speedup pyInt
    norm_num

/-- C9 witness: the amended budget theorem at a 10-character question,
55 ms per character, speedup 2, audio disabled. -/
theorem question_fallback_budget_witness :
    ((false && false) = false) ∧
    question_tts_budget_ms 10 55 2 false false 0 =
      pyInt ((tts_fallback_ms 10 55 : ℚ) / sanitize_speedup 2) :=
  ⟨rfl, (question_fallback_budget 10 55 2 false false 0 rfl).1⟩

/-! ## C10: expected-output fallback
Source: line 412 of `generate_video`:
`real_output = (output_text.strip() if output_text else (code.strip() if code else ""))`. -/

/-- Line 412, with Python truthiness of strings rendered as non-emptiness. -/
def real_output (output_text : Option (List Char)) (code : List Char) : List Char :=
  match output_text with
  | some t => if t ≠ [] then pyStrip t else (if code ≠ [] then pyStrip code else [])
  | none => if code ≠ [] then pyStrip code else []

/-- C10 (confirmed): when `output_text` is None or empty, the terminal result
phase displays the stripped code text itself as the output text (for empty
code both sides are the empty string). -/
theorem real_output_empty_fallback (output_text : Option (List Char)) (code : List Char)
    (h : output_text = none ∨ output_text = some []) :
    real_output output_text code = pyStrip code := by
  have hcode : (if code ≠ [] then pyStrip code else []) = pyStrip code := by
    by_cases hc : code = []
    · rw [hc]; simp [pyStrip]
    · simp [hc]
  rcases h with h | h <;> rw [h] <;> unfold real_output <;> simp [hcode]

/-- C10 witness: with no expected output, the code "ab " is displayed
stripped. -/
theorem real_output_empty_fallback_witness :
    ((none : Option (List Char)) = none ∨ (none : Option (List Char)) = some []) ∧
    real_output none ['a', 'b', ' '] = pyStrip ['a', 'b', ' '] :=
  ⟨Or.inl rfl, real_output_empty_fallback none ['a', 'b', ' '] (Or.inl rfl)⟩

/-! ## C7/C8: audio-event timeline of generate_video
A state model of the phases of `generate_video` that touch `frame_count`,
`last_key_event_ms` and `audio_events`: question typing (lines 570-607), the
post-question hold (lines 610-611), code typing over the wrapped code lines
(lines 655-742), the terminal slide (lines 841-880), the idle blink loop
(lines 896-913), command typing (lines 916-941), the enter event
(lines 944-946) and the result hold (lines 954-986). Frame images and the
random sample-index payloads are irrelevant to the claims and are not
tracked; `textwrap.wrap` of the question is abstracted by taking the
flattened wrapped question text as the input it produces. -/

inductive EvKind
  | tts | key | enter
deriving DecidableEq, Repr

/-- The mutable state threaded through the phases: `frame_count`,
`last_frame_img is not None`, `last_key_event_ms`, `audio_events`. -/
structure TState where
  frame_count : ℕ
  has_frame : Bool
  last_key_event_ms : ℤ
  events : List (ℤ × EvKind)
deriving Repr

/-- The per-render configuration: audio capability, TTS success, the final
tts duration, `KEY_MIN_INTERVAL_MS`, and the raw per-character frame counts
of the code and command phases plus the raw slide frame count (each clamped
with the source's `max(1, ...)` where the source clamps). -/
structure RenderCfg where
  audio_enabled : Bool
  tts_ok : Bool
  tts_duration_ms : ℕ
  key_min_interval_ms : ℤ
  frames_per_char_code_raw : ℕ
  term_slide_frames_raw : ℕ
  term_key_frames : ℕ
deriving Repr

/-- `time_ms = int((frame_count / self.fps) * 1000)` with fps = 30
(lines 600, 731, 934, 945). -/
def time_ms (fc : ℕ) : ℤ := ((fc * 1000) / 30 : ℕ)

/-- The `append_frame` effect on the tracked state. -/
def appendFrameT (st : TState) (repeats : ℕ) : TState :=
  { st with frame_count := st.frame_count + repeats, has_frame := true }

/-- The throttled key-event emission shared by the three typing phases
(lines 599-607, 730-738, 933-941): emit only for a non-whitespace character
with audio enabled and at least `key_min_interval_ms` since the last key
event; on emission update `last_key_event_ms`. -/
def tryEmitKey (cfg : RenderCfg) (chNonWs : Bool) (st : TState) : TState :=
  if chNonWs && cfg.audio_enabled then
    if cfg.key_min_interval_ms ≤ time_ms st.frame_count - st.last_key_event_ms then
      { st with events := st.events ++ [(time_ms st.frame_count, EvKind.key)],
                last_key_event_ms := time_ms st.frame_count }
    else st
  else st

/-- The enter event after the command (lines 944-946). -/
def emitEnter (cfg : RenderCfg) (st : TState) : TState :=
  if cfg.audio_enabled then
    { st with events := st.events ++ [(time_ms st.frame_count, EvKind.enter)] }
  else st

/-- `if last_frame_img is not None: append_frame(last_frame_img, n)`
(lines 610-611, 741-742). -/
def holdIfFrame (st : TState) (n : ℕ) : TState :=
  if st.has_frame then appendFrameT st n else st

/-- Initial state: `frame_count = 0`, `last_key_event_ms = -999999`
(line 543), and the tts event at offset 0 when a tts clip was saved
(lines 536-537; `tts_path` is only set when audio is enabled and the TTS
call succeeded, lines 424-434). -/
def initTState (cfg : RenderCfg) : TState :=
  { frame_count := 0, has_frame := false, last_key_event_ms := -999999,
    events := if cfg.audio_enabled && cfg.tts_ok then [((0:ℤ), EvKind.tts)] else [] }

/-- Question typing (lines 570-607): per character, append
`max(1, frames_per_char_list[idx])` frames, then run the key emission. -/
def questionPhase (cfg : RenderCfg) (flatQ : List Char) (st : TState) : TState :=
  (flatQ.zip (frames_per_char_list
      (total_frames_available cfg.tts_duration_ms 30) flatQ.length)).foldl
    (fun st p => tryEmitKey cfg (!isWs p.1) (appendFrameT st (max 1 p.2))) st

/-- Code typing (lines 676-742): per wrapped line, iterate the characters
after the pre-filled indentation, appending `frames_per_char_code` frames and
running key emission per character, then hold the last frame 5 frames. -/
def codePhase (cfg : RenderCfg) (wrapped : List (List Char)) (st : TState) : TState :=
  wrapped.foldl (fun st line =>
    holdIfFrame
      ((line.drop (line.length - (pyLstrip line).length)).foldl
        (fun st ch =>
          tryEmitKey cfg (!isWs ch) (appendFrameT st (max 1 cfg.frames_per_char_code_raw)))
        st) 5) st

/-- Terminal phases (lines 841-986): the slide (`term_slide_frames` single
frames), the 45-frame idle blink, command typing with key emission, the
enter event, and the 90-frame result hold. -/
def terminalPhases (cfg : RenderCfg) (command : List Char) (st : TState) : TState :=
  (List.range 90).foldl (fun st _ => appendFrameT st 1)
    (emitEnter cfg
      (command.foldl (fun st ch => tryEmitKey cfg (!isWs ch)
          (appendFrameT st (max 1 cfg.term_key_frames)))
        ((List.range 45).foldl (fun st _ => appendFrameT st 1)
          ((List.range (max 1 cfg.term_slide_frames_raw)).foldl
            (fun st _ => appendFrameT st 1) st))))

/-- The full audio-relevant timeline of `generate_video`: question phase on
the flattened wrapped question, 15-frame hold, code phase on
`wrap_code_line` applied to each line of `code.split('\n')` (lines 655-658),
then the terminal phases. -/
def generate_video_timeline (cfg : RenderCfg) (flatQ code command : List Char)
    (measure : List Char → ℕ) (max_px : ℕ) : TState :=
  terminalPhases cfg command
    (codePhase cfg
      (((splitOnChar '\n' code).map (fun l => wrap_code_line measure l max_px)).flatten)
      (holdIfFrame (questionPhase cfg flatQ (initTState cfg)) 15))

/-- The throttle invariant: when the configured interval is non-negative all
key events are at or before `last_key_event_ms`; all key events are at or
before the current clock; and key events are pairwise separated by at least
the configured interval in emission order. -/
def ThrottleInv (I : ℤ) (st : TState) : Prop :=
  (0 ≤ I → ∀ e ∈ st.events, e.2 = EvKind.key → e.1 ≤ st.last_key_event_ms) ∧
  (∀ e ∈ st.events, e.2 = EvKind.key → e.1 ≤ time_ms st.frame_count) ∧
  st.events.Pairwise (fun a b => a.2 = EvKind.key → b.2 = EvKind.key → a.1 + I ≤ b.1)

theorem time_ms_mono {a b : ℕ} (h : a ≤ b) : time_ms a ≤ time_ms b := by
  unfold time_ms
  have : a * 1000 / 30 ≤ b * 1000 / 30 :=
    Nat.div_le_div_right (Nat.mul_le_mul_right _ h)
  exact_mod_cast this

theorem inv_appendFrame {I : ℤ} {st : TState} (h : ThrottleInv I st) (n : ℕ) :
    ThrottleInv I (appendFrameT st n) := by
  obtain ⟨h1, h2, h3⟩ := h
  refine ⟨h1, ?_, h3⟩
  intro e he hk
  calc e.1 ≤ time_ms st.frame_count := h2 e he hk
    _ ≤ time_ms (st.frame_count + n) := time_ms_mono (Nat.le_add_right _ _)

theorem inv_holdIfFrame {I : ℤ} {st : TState} (h : ThrottleInv I st) (n : ℕ) :
    ThrottleInv I (holdIfFrame st n) := by
  unfold holdIfFrame
  split
  · exact inv_appendFrame h n
  · exact h

theorem inv_tryEmitKey {cfg : RenderCfg} {st : TState} (b : Bool)
    (h : ThrottleInv cfg.key_min_interval_ms st) :
    ThrottleInv cfg.key_min_interval_ms (tryEmitKey cfg b st) := by
  obtain ⟨h1, h2, h3⟩ := h
  unfold tryEmitKey
  split
  · split
    · rename_i hguard hint
      refine ⟨?_, ?_, ?_⟩
      · intro hI e he hk
        rcases List.mem_append.mp he with he | he
        · calc e.1 ≤ st.last_key_event_ms := h1 hI e he hk
            _ ≤ time_ms st.frame_count := by omega
        · simp at he
          subst he
          exact le_rfl
      · intro e he hk
        rcases List.mem_append.mp he with he | he
        · exact h2 e he hk
        · simp at he
          subst he
          exact le_rfl
      · rw [List.pairwise_append]
        refine ⟨h3, by simp, ?_⟩
        intro a ha b hb hak hbk
        simp at hb
        have hb1 : b.1 = time_ms st.frame_count := by rw [hb]
        rcases le_or_lt 0 cfg.key_min_interval_ms with hI | hI
        · have := h1 hI a ha hak
          omega
        · have := h2 a ha hak
          omega
    · exact ⟨h1, h2, h3⟩
  · exact ⟨h1, h2, h3⟩

theorem inv_emitEnter {cfg : RenderCfg} {st : TState}
    (h : ThrottleInv cfg.key_min_interval_ms st) :
    ThrottleInv cfg.key_min_interval_ms (emitEnter cfg st) := by
  obtain ⟨h1, h2, h3⟩ := h
  unfold emitEnter
  split
  · refine ⟨?_, ?_, ?_⟩
    · intro hI e he hk
      rcases List.mem_append.mp he with he | he
      · exact h1 hI e he hk
      · simp at he
        rw [he] at hk
        simp at hk
    · intro e he hk
      rcases List.mem_append.mp he with he | he
      · exact h2 e he hk
      · simp at he
        rw [he] at hk
        simp at hk
    · rw [List.pairwise_append]
      refine ⟨h3, by simp, ?_⟩
      intro a ha b hb hak hbk
      simp at hb
      rw [hb] at hbk
      simp at hbk
  · exact ⟨h1, h2, h3⟩

theorem inv_init (cfg : RenderCfg) : ThrottleInv cfg.key_min_interval_ms (initTState cfg) := by
  unfold initTState ThrottleInv
  refine ⟨?_, ?_, ?_⟩
  · intro _ e he hk
    split at he
    · simp at he
      rw [he] at hk
      simp at hk
    · simp at he
  · intro e he hk
    split at he
    · simp at he
      rw [he] at hk
      simp at hk
    · simp at he
  · split <;> simp

theorem inv_questionPhase (cfg : RenderCfg) (flatQ : List Char) {st : TState}
    (h : ThrottleInv cfg.key_min_interval_ms st) :
    ThrottleInv cfg.key_min_interval_ms (questionPhase cfg flatQ st) := by
  unfold questionPhase
  exact foldl_preserve _ _ _ st
    (fun p _ t ht => inv_tryEmitKey _ (inv_appendFrame ht _)) h

theorem inv_codePhase (cfg : RenderCfg) (wrapped : List (List Char)) {st : TState}
    (h : ThrottleInv cfg.key_min_interval_ms st) :
    ThrottleInv cfg.key_min_interval_ms (codePhase cfg wrapped st) := by
  unfold codePhase
  refine foldl_preserve _ _ _ st (fun line _ t ht => ?_) h
  refine inv_holdIfFrame ?_ 5
  exact foldl_preserve _ _ _ t
    (fun ch _ u hu => inv_tryEmitKey _ (inv_appendFrame hu _)) ht

theorem inv_terminalPhases (cfg : RenderCfg) (command : List Char) {st : TState}
    (h : ThrottleInv cfg.key_min_interval_ms st) :
    ThrottleInv cfg.key_min_interval_ms (terminalPhases cfg command st) := by
  unfold terminalPhases
  refine foldl_preserve _ _ _ _ (fun n _ t ht => inv_appendFrame ht 1) ?_
  refine inv_emitEnter ?_
  refine foldl_preserve _ _ _ _
    (fun ch _ t ht => inv_tryEmitKey _ (inv_appendFrame ht _)) ?_
  refine foldl_preserve _ _ _ _ (fun n _ t ht => inv_appendFrame ht 1) ?_
  exact foldl_preserve _ _ _ _ (fun n _ t ht => inv_appendFrame ht 1) h

/-- C8 (confirmed): in every render, any two key events in the emitted event
list are at least `key_min_interval_ms` apart (in emission order the later
offset exceeds the earlier by at least the interval); the throttle state is
a single `last_key_event_ms` threaded through the question-typing,
code-typing and command-typing phases. The statement holds for every
configuration, question, code, command, measure and budget; with audio
disabled it holds vacuously because no key event is emitted. -/
theorem key_event_throttle (cfg : RenderCfg) (flatQ code command : List Char)
    (measure : List Char → ℕ) (max_px : ℕ) :
    ((generate_video_timeline cfg flatQ code command measure max_px).events).Pairwise
      (fun a b => a.2 = EvKind.key → b.2 = EvKind.key →
        a.1 + cfg.key_min_interval_ms ≤ b.1) := by
  unfold generate_video_timeline
  exact (inv_terminalPhases cfg command
    (inv_codePhase cfg _
      (inv_holdIfFrame (inv_questionPhase cfg flatQ (inv_init cfg)) 15))).2.2

theorem tryEmitKey_off {cfg : RenderCfg} (hoff : cfg.audio_enabled = false)
    (b : Bool) (st : TState) : tryEmitKey cfg b st = st := by
  unfold tryEmitKey
  rw [hoff]
  simp

theorem emitEnter_off {cfg : RenderCfg} (hoff : cfg.audio_enabled = false)
    (st : TState) : emitEnter cfg st = st := by
  unfold emitEnter
  rw [hoff]
  simp

theorem events_nil_of_audio_off (cfg : RenderCfg) (hoff : cfg.audio_enabled = false)
    (flatQ code command : List Char) (measure : List Char → ℕ) (max_px : ℕ) :
    (generate_video_timeline cfg flatQ code command measure max_px).events = [] := by
  unfold generate_video_timeline terminalPhases codePhase questionPhase
  refine foldl_preserve _ (fun st : TState => st.events = []) _ _
    (fun n _ t ht => ht) ?_
  rw [emitEnter_off hoff]
  refine foldl_preserve _ (fun st : TState => st.events = []) _ _
    (fun ch _ t ht => by rw [tryEmitKey_off hoff]; exact ht) ?_
  refine foldl_preserve _ (fun st : TState => st.events = []) _ _
    (fun n _ t ht => ht) ?_
  refine foldl_preserve _ (fun st : TState => st.events = []) _ _
    (fun n _ t ht => ht) ?_
  refine foldl_preserve _ (fun st : TState => st.events = []) _ _
    (fun line _ t ht => ?_) ?_
  · unfold holdIfFrame
    split
    · exact foldl_preserve _ (fun st : TState => st.events = []) _ _
        (fun ch _ u hu => by rw [tryEmitKey_off hoff]; exact hu) ht
    · exact foldl_preserve _ (fun st : TState => st.events = []) _ _
        (fun ch _ u hu => by rw [tryEmitKey_off hoff]; exact hu) ht
  · unfold holdIfFrame
    split
    · refine foldl_preserve _ (fun st : TState => st.events = []) _ _
        (fun p _ t ht => by rw [tryEmitKey_off hoff]; exact ht) ?_
      unfold initTState
      rw [hoff]
      simp
    · refine foldl_preserve _ (fun st : TState => st.events = []) _ _
        (fun p _ t ht => by rw [tryEmitKey_off hoff]; exact ht) ?_
      unfold initTState
      rw [hoff]
      simp

/-- The audio-producing calls of one render and the guards the source places
on each: TTS synthesis (line 424), background-music creation (lines 996-1032),
mechanical click synthesis (line 251 guard inside `create_mechanical_click`),
enter-sound synthesis (line 293 guard inside `create_enter_sound`), the
event-overlay mixing loop (line 1055) and the audio export (line 1123) all
run only when `audio_enabled` holds. -/
inductive AudioCall
  | ttsSynth | bgMusic | clickSynth | enterSynth | mixOverlay | exportAudio
deriving DecidableEq, Repr

def render_audio_calls (audio_enabled : Bool) : List AudioCall :=
  (if audio_enabled then [AudioCall.ttsSynth] else []) ++
  (if audio_enabled then [AudioCall.bgMusic] else []) ++
  (if audio_enabled then [AudioCall.clickSynth] else []) ++
  (if audio_enabled then [AudioCall.enterSynth] else []) ++
  (if audio_enabled then [AudioCall.mixOverlay] else []) ++
  (if audio_enabled then [AudioCall.exportAudio] else [])

/-- Lines 1122-1129: the mixed-audio temp file exists only when audio is
enabled and the export succeeded. -/
def temp_audio_path (audio_enabled export_ok : Bool) : Option String :=
  if audio_enabled && export_ok then some "audio/temp_audio.mp3" else none

/-- C7 (confirmed): with the audio backend unavailable
(`audio_enabled = false`), the audio event list stays empty, every
audio-producing call (speech synthesis, background music, click synthesis,
enter synthesis, mixing, audio export) is skipped, and `generate_video`
still returns the final output path through the video-only copy branch. -/
theorem audio_disabled_degradation (cfg : RenderCfg) (flatQ code command : List Char)
    (measure : List Char → ℕ) (max_px : ℕ) (export_ok merge_succeeds ffmpeg_available : Bool)
    (output_dir filename : String) (h : cfg.audio_enabled = false) :
    (generate_video_timeline cfg flatQ code command measure max_px).events = [] ∧
    render_audio_calls cfg.audio_enabled = [] ∧
    merge_phase output_dir filename ffmpeg_available
        (temp_audio_path cfg.audio_enabled export_ok) merge_succeeds true =
      MuxResult.ok (output_dir ++ "/" ++ filename ++ ".mp4") := by
  refine ⟨events_nil_of_audio_off cfg h flatQ code command measure max_px, ?_, ?_⟩
  · rw [h]; rfl
  · unfold merge_phase temp_audio_path
    rw [h]
    simp

/-- C7 witness: a concrete audio-disabled configuration yields an empty
event list. -/
theorem audio_disabled_degradation_witness :
    (RenderCfg.mk false false 0 60 1 15 1).audio_enabled = false ∧
    (generate_video_timeline (RenderCfg.mk false false 0 60 1 15 1) [] [] []
      List.length 10).events = [] :=
  ⟨rfl, (audio_disabled_degradation (RenderCfg.mk false false 0 60 1 15 1) [] [] []
    List.length 10 false false false "output" "f" rfl).1⟩
